import Mathlib

/-!
Shallow embedding of the libbsdf sample-grid core: the array utilities
(Array.h), the 4-axis angular sample grid (Brdf/SampleSet.cpp), the DDR
export serializer and arrangement pipeline (Writer/DdrWriter.cpp), and
the tabular BRDF sampling routine (ReflectanceModel/ReflectanceModelUtility.cpp).

Machine floats are embedded as exact rationals.  The non-finite float
payloads that SampleSet::validate detects are embedded by the type FVal,
whose arithmetic is idealized: finite operands yield exact finite results
and non-finite operands propagate.
-/

namespace LibBsdf

/-- The float32 value of pi (PI_F in Common/Constant.h), as the exact rational
value of the float closest to pi. -/
def PI_F : ℚ := 13176795 / 4194304

/-- The float32 machine epsilon (EPSILON_F in Common/Constant.h). -/
def EPSILON_F : ℚ := 1 / 8388608

/-- Modelled from the spec: SpecularCoordinateSystem::MAX_ANGLE0 (header not in
src/), the maximum incoming polar angle, 90 degrees. -/
def MAX_ANGLE0 : ℚ := PI_F / 2

/-- Degrees to radians at float pi, used to state the azimuth-coverage examples. -/
def toRadian (d : ℚ) : ℚ := d * PI_F / 180

/-- A stored float value: either a finite value (an exact rational) or one of
the non-finite payloads that validation detects. -/
inductive FVal where
  | fin (q : ℚ)
  | nan
  | inf
  | ninf
deriving DecidableEq

namespace FVal

/-- Eigen allFinite / isfinite on a single element. -/
def isFinite : FVal → Bool
  | fin _ => true
  | _ => false

/-- Idealized float addition: finite operands give the exact finite sum,
non-finite operands propagate. -/
def add : FVal → FVal → FVal
  | fin a, fin b => fin (a + b)
  | _, _ => nan

/-- Idealized float subtraction. -/
def sub : FVal → FVal → FVal
  | fin a, fin b => fin (a - b)
  | _, _ => nan

/-- Idealized scaling by a finite constant. -/
def scale (c : ℚ) : FVal → FVal
  | fin a => fin (c * a)
  | x => x

/-- Clamp a channel into the interval from 0 to b; finite stays finite. -/
def clamp (b : ℚ) : FVal → FVal
  | fin a => fin (max 0 (min b a))
  | x => x

/-- Float ordering comparison: NaN compares false against everything, the
infinities compare as extreme values. -/
def ltB : FVal → FVal → Bool
  | fin a, fin b => a < b
  | nan, _ => false
  | _, nan => false
  | ninf, ninf => false
  | ninf, _ => true
  | _, ninf => false
  | inf, _ => false
  | fin _, inf => true

end FVal

/-- The color model of a sample set (ColorModel.h). -/
inductive ColorModel where
  | RGB_MODEL
  | XYZ_MODEL
  | MONOCHROMATIC_MODEL
  | SPECTRAL_MODEL
deriving DecidableEq

/-- Reflectance versus transmittance data (DataType in Global.h). -/
inductive DataType where
  | BRDF_DATA
  | BTDF_DATA
deriving DecidableEq

namespace array_util

/-- Modelled from the spec: lb::isEqual (Common/Utility.h, not in src/) -
approximate equality of two scalars within a small relative tolerance with an
absolute floor ("within a small relative/absolute tolerance"). -/
def isEqual (a b : ℚ) : Bool := |a - b| ≤ EPSILON_F * 2 * max (max |a| |b|) 1

/-- array_util::isEqualInterval (Array.h): false for length at most 2;
otherwise the nominal interval is the last element divided by (n - 1), and
every element must match i * interval within tolerance. -/
def isEqualInterval (array : List ℚ) : Bool :=
  if array.length ≤ 2 then false
  else
    let interval : ℚ := array.getD (array.length - 1) 0 / ((array.length - 1 : ℕ) : ℚ)
    (List.range array.length).all fun i => isEqual (array.getD i 0) (interval * (i : ℚ))

/-- Eigen ArrayXf::LinSpaced: n equally spaced values from low to high; a
single-element result holds high. -/
def linSpaced {K : Type} [Field K] (n : ℕ) (low high : K) : List K :=
  if n = 1 then [high]
  else (List.range n).map fun (i : ℕ) => low + (high - low) * (i : K) / ((n - 1 : ℕ) : K)

/-- array_util::createExponential (Array.h): start from the linearly spaced
sequence from 0 to maxValue and replace every interior point by
(value/maxValue)^exponent * maxValue, where std::pow is taken at an arbitrary
real scalar exponent (the float scalars of this function are idealized as
reals). -/
noncomputable def createExponential (numElements : ℕ) (maxValue : ℝ) (exponent : ℝ) : List ℝ :=
  let arr := linSpaced numElements 0 maxValue
  arr.mapIdx fun i x =>
    if 1 ≤ i ∧ i + 1 < arr.length then ((x / maxValue) ^ exponent) * maxValue else x

/-- Modelled from the spec: the binary-search arm of array_util::findBounds
(Array.cpp, not in src/): narrow a bracketing index pair over the ascending
sequence until the pair is tight. -/
def searchBounds (values : List ℚ) (value : ℚ) (lo hi : ℕ) : ℕ × ℕ :=
  if hi ≤ lo + 1 then (lo, hi)
  else if value < values.getD ((lo + hi) / 2) 0 then
    searchBounds values value lo ((lo + hi) / 2)
  else
    searchBounds values value ((lo + hi) / 2) hi
termination_by hi - lo
decreasing_by
  · omega
  · omega

/-- Modelled from the spec: array_util::findBounds (Array.cpp, not in src/):
the bracketing index pair for interpolation.  A query below the first or above
the last sample gets the two nearest boundary samples for extrapolation; with
a single sample both bounds are index 0; an equal-interval sequence is indexed
by direct division, any other by binary search. -/
def findBounds (values : List ℚ) (value : ℚ) (equalIntervalValues : Bool) : ℕ × ℕ :=
  let n := values.length
  if n ≤ 1 then (0, 0)
  else if value ≤ values.getD 0 0 then (0, 1)
  else if values.getD (n - 1) 0 ≤ value then (n - 2, n - 1)
  else if equalIntervalValues then
    let interval := values.getD (n - 1) 0 / ((n - 1 : ℕ) : ℚ)
    let i := min (n - 2) (Int.toNat (Rat.floor (value / interval)))
    (i, i + 1)
  else searchBounds values value 0 (n - 1)

end array_util

/-- A stored per-cell spectrum: one value per wavelength. -/
abbrev Spectrum := List FVal

/-- The dense sample array, nested by axis0, axis1, axis2, axis3. -/
abbrev Spectra4 := List (List (List (List Spectrum)))

/-- The 4-axis angular sample grid (SampleSet.h / SampleSet.cpp): four angle
axes, the wavelength axis, the per-cell spectra, the color model, and the
cached one-sidedness flag (the per-axis equal-interval flags are cached the
same way through array_util.isEqualInterval and are not needed here). -/
structure SampleSet where
  angles0 : List FVal
  angles1 : List FVal
  angles2 : List FVal
  angles3 : List FVal
  wavelengths : List FVal
  spectra : Spectra4
  colorModel : ColorModel
  oneSide : Bool
deriving DecidableEq

/-- Eigen allFinite over one stored spectrum. -/
def Spectrum.allFinite (sp : Spectrum) : Bool := sp.all FVal.isFinite

/-- The spectra scan of SampleSet::validate: every cell of the 4-dimensional
sample array must be finite. -/
def spectraAllFinite (s : Spectra4) : Bool :=
  s.all fun s0 => s0.all fun s1 => s1.all fun row => row.all Spectrum.allFinite

/-- Finiteness of every cell of a sample array, in propositional form. -/
def SpectraFinite (s : Spectra4) : Prop :=
  ∀ s0 ∈ s, ∀ s1 ∈ s0, ∀ row ∈ s1, ∀ sp ∈ row, sp.allFinite = true

/-- Finiteness of every entry of an axis or wavelength array. -/
def AxisFinite (l : List FVal) : Prop := ∀ v ∈ l, v.isFinite = true

/-- SampleSet::validate (SampleSet.cpp): true only when every stored spectrum
cell, all four angle axes, and the wavelength array hold only finite values.
The C++ member function is const: it scans and reports, repairing nothing. -/
def SampleSet.validate (ss : SampleSet) : Bool :=
  spectraAllFinite ss.spectra &&
  ss.angles0.all FVal.isFinite &&
  ss.angles1.all FVal.isFinite &&
  ss.angles2.all FVal.isFinite &&
  ss.angles3.all FVal.isFinite &&
  ss.wavelengths.all FVal.isFinite

/-- The validate call observed as a state transformer: the method is const, so
the receiver is returned unchanged next to the verdict. -/
def SampleSet.validateCall (ss : SampleSet) : Bool × SampleSet := (ss.validate, ss)

/-- The offset used by SampleSet::updateOneSide: EPSILON_F * 2. -/
def OFFSET : ℚ := EPSILON_F * 2

/-- One loop iteration of SampleSet::updateOneSide (SampleSet.cpp): record
whether the angle lies strictly inside the lower azimuthal half or strictly
inside the upper azimuthal half. -/
def oneSideStep (st : Bool × Bool) (angle : FVal) : Bool × Bool :=
  (st.1 || (FVal.ltB (FVal.fin OFFSET) angle &&
            FVal.ltB angle (FVal.fin (PI_F - OFFSET * PI_F))),
   st.2 || (FVal.ltB (FVal.fin (PI_F + OFFSET * PI_F)) angle &&
            FVal.ltB angle (FVal.fin (2 * PI_F - OFFSET * (2 * PI_F)))))

/-- SampleSet::updateOneSide (SampleSet.cpp): scan axis3, record whether any
value was seen strictly inside each open azimuthal half, and flag the grid
one-sided unless both halves were seen. -/
def updateOneSideFlag (angles3 : List FVal) : Bool :=
  let r := angles3.foldl oneSideStep (false, false)
  (!r.1 || !r.2)

/-- SampleSet::updateOneSide as the recomputation of the cached flag. -/
def SampleSet.updateOneSide (ss : SampleSet) : SampleSet :=
  { ss with oneSide := updateOneSideFlag ss.angles3 }

/-- Pointwise sum of two spectra. -/
def Spectrum.add (a b : Spectrum) : Spectrum := List.zipWith FVal.add a b

/-- Pointwise scaling of a spectrum. -/
def Spectrum.scale (c : ℚ) (sp : Spectrum) : Spectrum := sp.map (FVal.scale c)

/-- Mean of a list of spectra (the reconciliation of overlapping samples). -/
def Spectrum.avgOf (l : List Spectrum) : Spectrum :=
  match l with
  | [] => []
  | h :: t => Spectrum.scale (1 / (1 + (t.length : ℚ))) (t.foldl Spectrum.add h)

/-- A 2-dimensional block of spectra, indexed by axis2 then axis3. -/
abbrev Block := List (List Spectrum)

/-- Pointwise sum of two blocks. -/
def Block.add (a b : Block) : Block := List.zipWith (List.zipWith Spectrum.add) a b

/-- Pointwise scaling of a block. -/
def Block.scale (c : ℚ) (b : Block) : Block := b.map (List.map (Spectrum.scale c))

/-- Mean of a list of blocks. -/
def Block.avgOf (l : List Block) : Block :=
  match l with
  | [] => []
  | h :: t => Block.scale (1 / (1 + (t.length : ℚ))) (t.foldl Block.add h)

/-- Modelled from the spec: equalizeOverlappingSamples (Brdf/Processor, not in
src/).  At the incoming polar singularity every incoming azimuth index
addresses one physical direction, and at the specular polar singularity every
specular azimuth index does; each overlapping group is reconciled by
averaging. -/
def equalizeOverlappingSamples (ss : SampleSet) : SampleSet :=
  let spectra1 : Spectra4 :=
    match ss.spectra with
    | [] => []
    | s0 :: rest => (s0.map fun _ => Block.avgOf s0) :: rest
  let spectra2 : Spectra4 :=
    spectra1.map fun s0 => s0.map fun s1 =>
      match s1 with
      | [] => []
      | b0 :: rest2 => (b0.map fun _ => Spectrum.avgOf b0) :: rest2
  { ss with spectra := spectra2 }

/-- Modelled from the spec: the azimuthal symmetrization of Brdf::expandAngles
(not in src/).  When the one-sided flag is set, the stored azimuthal half is
mirrored across the missing half (angle a maps to 2 pi - a) so that axis3
spans the full turn; the mirrored cells copy the stored cells. -/
def expandAngles (ss : SampleSet) : SampleSet :=
  if ss.oneSide then
    { ss with
      angles3 := ss.angles3 ++
        ((ss.angles3.drop 1).reverse.map (FVal.sub (FVal.fin (2 * PI_F)))),
      spectra := ss.spectra.map fun s0 => s0.map fun s1 => s1.map fun row =>
        row ++ (row.drop 1).reverse,
      oneSide := false }
  else ss

/-- Modelled from the spec: copySpectraFromPhiOf0To360 (Brdf/Processor, not in
src/) - close the periodic boundary by appending an axis3 sample at 2 pi whose
spectra are copied from the sample at 0. -/
def copySpectraFromPhiOf0To360 (ss : SampleSet) : SampleSet :=
  { ss with
    angles3 := ss.angles3 ++ [FVal.fin (2 * PI_F)],
    spectra := ss.spectra.map fun s0 => s0.map fun s1 => s1.map fun row =>
      row ++ [row.getD 0 []] }

/-- Modelled from the spec: the configured bound of the energy-plausibility
correction. -/
def ENERGY_BOUND : ℚ := 1

/-- Modelled from the spec: fixEnergyConservation (Brdf/Processor, not in
src/).  The exact reconciliation rule is under-specified (spec section 9); the
spec requires that afterwards no channel is negative or above the energy
bound, so the correction is embedded as a clamp of every channel into
[0, bound]. -/
def fixEnergyConservation (bound : ℚ) (ss : SampleSet) : SampleSet :=
  { ss with spectra := ss.spectra.map fun s0 => s0.map fun s1 => s1.map fun row =>
      row.map fun sp => sp.map (FVal.clamp bound) }

/-- Modelled from the spec: fillSpectraAtInThetaOf90 (Brdf/Processor, not in
src/) - overwrite with the fill value every sample whose incoming polar angle
is the grazing limit. -/
def fillSpectraAtInThetaOf90 (ss : SampleSet) (v : ℚ) : SampleSet :=
  { ss with spectra := (ss.angles0.zip ss.spectra).map fun p =>
      if p.1 = FVal.fin MAX_ANGLE0 then
        p.2.map fun s1 => s1.map fun row => row.map fun sp => sp.map fun _ => FVal.fin v
      else p.2 }

/-- DdrWriter::arrange, first step (DdrWriter.cpp lines 241-254): a grid with
exactly one incoming polar sample has that axis replaced by 10 linearly spaced
samples from 0 to the maximum incoming polar angle; the single stored slice is
extended flat onto every new sample (the resampling constructor is outside
src/, and the spec calls the resampling a flat extension). -/
def arrangeStep1 (ss : SampleSet) : SampleSet :=
  if ss.angles0.length = 1 then
    { ss with
      angles0 := (array_util.linSpaced 10 0 MAX_ANGLE0).map FVal.fin,
      spectra := List.replicate 10 (ss.spectra.getD 0 []) }
  else ss

/-- DdrWriter::arrange (DdrWriter.cpp): incoming-angle expansion, overlap
equalization, azimuthal symmetrization, periodic boundary closure,
energy-plausibility correction, and, for transmittance data, grazing zero
fill, in this order, on a working copy. -/
def DdrWriter.arrange (ss : SampleSet) (dataType : DataType) : SampleSet :=
  let a := arrangeStep1 ss
  let b := equalizeOverlappingSamples a
  let c := expandAngles b
  let d := copySpectraFromPhiOf0To360 c
  let e := fixEnergyConservation ENERGY_BOUND d
  if dataType = DataType.BTDF_DATA then fillSpectraAtInThetaOf90 e 0 else e

/-- DdrWriter::convert (DdrWriter.cpp) at a canonical (specular-coordinate)
source: a deep copy.  The remaining branches rebuild the grid through
resampling constructors that are outside src/. -/
def DdrWriter.convert (ss : SampleSet) : SampleSet := ss

/-- DdrWriter::output (DdrWriter.cpp lines 52-59): the grid is validated and
the body is emitted only when validation passes; the returned verdict is the
emission success. -/
def DdrWriter.outputOk (ss : SampleSet) : Bool := ss.validate

/-- DdrWriter::write for an already canonical BRDF (DdrWriter.cpp lines 23-34):
fail when the destination cannot be opened, otherwise defer to output. -/
def DdrWriter.writeCanonical (canOpen : Bool) (ss : SampleSet) : Bool :=
  if !canOpen then false else DdrWriter.outputOk ss

/-- DdrWriter::write (DdrWriter.cpp lines 36-50): validate the source grid,
convert and arrange it, then write the arranged grid to the destination. -/
def DdrWriter.write (canOpen : Bool) (ss : SampleSet) (dataType : DataType) : Bool :=
  if !ss.validate then false
  else DdrWriter.writeCanonical canOpen (DdrWriter.arrange (DdrWriter.convert ss) dataType)

/-- A three-channel value (Eigen Vec3f), embedded with exact rationals. -/
structure Vec3q where
  x : ℚ
  y : ℚ
  z : ℚ
deriving DecidableEq

/-- Channel access. -/
def Vec3q.get (v : Vec3q) : Fin 3 → ℚ
  | ⟨0, _⟩ => v.x
  | ⟨1, _⟩ => v.y
  | ⟨2, _⟩ => v.z

/-- Eigen cwiseMax(0.0): channel-wise clamp to non-negative. -/
def Vec3q.cwiseMax0 (v : Vec3q) : Vec3q := ⟨max v.x 0, max v.y 0, max v.z 0⟩

/-- DdrWriter::output body emission (DdrWriter.cpp lines 180-189): the numeric
value written inside a def/enddef block for one cell and one channel.  The
stored spectrum is clamped channel-wise to non-negative, an XYZ-tagged grid is
routed through the XYZ-to-RGB conversion (SpectrumUtility, outside src/, kept
abstract as conv), and the chosen channel is scaled by pi. -/
def DdrWriter.outputCellValue (conv : Vec3q → Vec3q) (cm : ColorModel)
    (sp : Vec3q) (wl : Fin 3) : ℚ :=
  let sp2 := sp.cwiseMax0
  if cm = ColorModel.XYZ_MODEL then (conv sp2).get wl * PI_F
  else sp2.get wl * PI_F

/-- DdrWriter::output, older copy (ReflectanceModelUtility.cpp lines 216-225):
the stored spectrum is emitted without any clamp. -/
def DdrWriter.outputCellValueOld (conv : Vec3q → Vec3q) (cm : ColorModel)
    (sp : Vec3q) (wl : Fin 3) : ℚ :=
  if cm = ColorModel.XYZ_MODEL then (conv sp).get wl * PI_F
  else sp.get wl * PI_F

/-- One cell stored by reflectance_model_utility::setupTabularBrdf
(ReflectanceModelUtility.cpp lines 48-80): a skipped downward-direction cell is
left for the back-side fill (embedded with the zero-fill branch that the spec
allows); otherwise the model value is capped - channel-wise at maxValue for
RGB, and min(mean, maxValue) for the monochromatic single channel. -/
def tabCell (model : ℕ → ℕ → ℕ → ℕ → Vec3q) (cm : ColorModel)
    (backSideFillable : Bool) (downward : ℕ → ℕ → ℕ → ℕ → Bool)
    (maxValue : ℚ) (i0 i1 i2 i3 : ℕ) : Spectrum :=
  if backSideFillable && downward i0 i1 i2 i3 then
    if cm = ColorModel.RGB_MODEL then [FVal.fin 0, FVal.fin 0, FVal.fin 0]
    else [FVal.fin 0]
  else
    let v := model i0 i1 i2 i3
    if cm = ColorModel.RGB_MODEL then
      [FVal.fin (min v.x maxValue), FVal.fin (min v.y maxValue), FVal.fin (min v.z maxValue)]
    else
      [FVal.fin (min ((v.x + v.y + v.z) / 3) maxValue)]

/-- reflectance_model_utility::setupTabularBrdf (ReflectanceModelUtility.cpp):
reject any color model other than RGB and monochromatic, leaving the grid
untouched; otherwise store a capped model sample in every cell.  The in/out
directions fed to the model are computed by geometry outside src/, so the
reflectance model is embedded as the per-cell value map. -/
def setupTabularBrdf (model : ℕ → ℕ → ℕ → ℕ → Vec3q)
    (backSideFillable : Bool) (downward : ℕ → ℕ → ℕ → ℕ → Bool)
    (ss : SampleSet) (maxValue : ℚ) : Bool × SampleSet :=
  if ss.colorModel ≠ ColorModel.RGB_MODEL ∧ ss.colorModel ≠ ColorModel.MONOCHROMATIC_MODEL then
    (false, ss)
  else
    (true, { ss with spectra :=
      ((List.range ss.angles0.length).map fun i0 =>
        (List.range ss.angles1.length).map fun i1 =>
          (List.range ss.angles2.length).map fun i2 =>
            (List.range ss.angles3.length).map fun i3 =>
              tabCell model ss.colorModel backSideFillable downward maxValue i0 i1 i2 i3) })

/-- A value is finite exactly when it carries a rational payload. -/
theorem FVal.isFinite_iff (v : FVal) : v.isFinite = true ↔ ∃ q, v = FVal.fin q := by
  cases v <;> simp [FVal.isFinite]

/-- C8: SampleSet::validate returns true iff every stored spectrum cell, every
one of the four angle axes, and the wavelength array contain only finite
values; and, being a const scan, it leaves the grid unchanged (the call
returns the receiver as it was). -/
theorem validate_characterization (ss : SampleSet) :
    (ss.validate = true ↔
      ((∀ s0 ∈ ss.spectra, ∀ s1 ∈ s0, ∀ row ∈ s1, ∀ sp ∈ row, ∀ v ∈ sp, ∃ q, v = FVal.fin q) ∧
       (∀ v ∈ ss.angles0, ∃ q, v = FVal.fin q) ∧
       (∀ v ∈ ss.angles1, ∃ q, v = FVal.fin q) ∧
       (∀ v ∈ ss.angles2, ∃ q, v = FVal.fin q) ∧
       (∀ v ∈ ss.angles3, ∃ q, v = FVal.fin q) ∧
       (∀ v ∈ ss.wavelengths, ∃ q, v = FVal.fin q))) ∧
    ss.validateCall = (ss.validate, ss) := by
  refine ⟨?_, rfl⟩
  simp only [SampleSet.validate, spectraAllFinite, Spectrum.allFinite, Bool.and_eq_true,
    List.all_eq_true, FVal.isFinite_iff]
  tauto

/-- Unfolding the one-side scan loop: the accumulated pair records whether any
element so far was seen strictly inside the lower or the upper azimuthal half. -/
theorem foldl_oneSideStep (l : List FVal) (a b : Bool) :
    l.foldl oneSideStep (a, b) =
      (a || l.any fun v => FVal.ltB (FVal.fin OFFSET) v &&
            FVal.ltB v (FVal.fin (PI_F - OFFSET * PI_F)),
       b || l.any fun v => FVal.ltB (FVal.fin (PI_F + OFFSET * PI_F)) v &&
            FVal.ltB v (FVal.fin (2 * PI_F - OFFSET * (2 * PI_F)))) := by
  induction l generalizing a b with
  | nil => simp
  | cons h t ih => simp [oneSideStep, ih, Bool.or_assoc]

/-- C3: the one-sidedness recomputation sets the flag as: seenLowerHalf iff
some axis3 value lies strictly inside the lower open interval, seenUpperHalf
iff some value lies strictly inside the upper open interval, and one-sided
equals not seenLowerHalf or not seenUpperHalf; an axis held inside
(0, 170 degrees) is flagged one-sided, and an axis meeting both
(10, 170 degrees) and (190, 350 degrees) is not. -/
theorem oneSide_characterization :
    (∀ qs : List ℚ,
      (updateOneSideFlag (qs.map FVal.fin) = true ↔
        (¬ ∃ a ∈ qs, OFFSET < a ∧ a < PI_F - OFFSET * PI_F) ∨
        (¬ ∃ a ∈ qs, PI_F + OFFSET * PI_F < a ∧ a < 2 * PI_F - OFFSET * (2 * PI_F)))) ∧
    (∀ qs : List ℚ, (∀ a ∈ qs, 0 < a ∧ a < toRadian 170) →
        updateOneSideFlag (qs.map FVal.fin) = true) ∧
    (∀ qs : List ℚ, (∃ a ∈ qs, toRadian 10 < a ∧ a < toRadian 170) →
        (∃ b ∈ qs, toRadian 190 < b ∧ b < toRadian 350) →
        updateOneSideFlag (qs.map FVal.fin) = false) := by
  have main : ∀ qs : List ℚ,
      (updateOneSideFlag (qs.map FVal.fin) = true ↔
        (¬ ∃ a ∈ qs, OFFSET < a ∧ a < PI_F - OFFSET * PI_F) ∨
        (¬ ∃ a ∈ qs, PI_F + OFFSET * PI_F < a ∧ a < 2 * PI_F - OFFSET * (2 * PI_F))) := by
    intro qs
    simp [updateOneSideFlag, foldl_oneSideStep, FVal.ltB, List.any_eq_true]
  refine ⟨main, ?_, ?_⟩
  · intro qs h
    refine (main qs).mpr (Or.inr ?_)
    rintro ⟨a, ha, h1, -⟩
    have h2 := (h a ha).2
    have : toRadian 170 < PI_F + OFFSET * PI_F := by
      norm_num [toRadian, PI_F, OFFSET, EPSILON_F]
    linarith
  · intro qs hlow hup
    rcases hlow with ⟨a, ha, ha1, ha2⟩
    rcases hup with ⟨b, hb, hb1, hb2⟩
    have hOl : OFFSET < toRadian 10 := by norm_num [toRadian, PI_F, OFFSET, EPSILON_F]
    have hOu : toRadian 170 < PI_F - OFFSET * PI_F := by
      norm_num [toRadian, PI_F, OFFSET, EPSILON_F]
    have hUl : PI_F + OFFSET * PI_F < toRadian 190 := by
      norm_num [toRadian, PI_F, OFFSET, EPSILON_F]
    have hUu : toRadian 350 < 2 * PI_F - OFFSET * (2 * PI_F) := by
      norm_num [toRadian, PI_F, OFFSET, EPSILON_F]
    cases hflag : updateOneSideFlag (qs.map FVal.fin) with
    | false => rfl
    | true =>
      rcases (main qs).mp hflag with h | h
      · exact absurd ⟨a, ha, by linarith, by linarith⟩ h
      · exact absurd ⟨b, hb, by linarith, by linarith⟩ h

/-- C3 witness: an axis meeting both azimuthal halves is not one-sided. -/
theorem oneSide_characterization_witness :
    updateOneSideFlag ([1, 7/2].map FVal.fin) = false := by
  refine oneSide_characterization.2.2 [1, 7/2] ⟨1, ?_, ?_, ?_⟩ ⟨7/2, ?_, ?_, ?_⟩ <;>
    norm_num [toRadian, PI_F]

/-- C1 counterexample: the older serializer copy emits the stored channel with
no clamp, so a stored channel of -1 in an RGB grid is written as a negative
number, not as max(-1, 0) * pi. -/
theorem outputCellValueOld_negative :
    DdrWriter.outputCellValueOld id ColorModel.RGB_MODEL ⟨-1, 0, 0⟩ 0 < 0 ∧
    DdrWriter.outputCellValueOld id ColorModel.RGB_MODEL ⟨-1, 0, 0⟩ 0 ≠
      max (-1 : ℚ) 0 * PI_F := by
  constructor <;> norm_num [DdrWriter.outputCellValueOld, Vec3q.get, Vec3q.cwiseMax0, PI_F]

/-- C1 (amended): in the current serializer every def/enddef value equals
(channel clamped at 0, converted when the color model is XYZ) * pi; for
every non-XYZ color model the emitted value is never negative, for arbitrary
stored samples; an XYZ-tagged value is converted after the clamp and before
the pi scaling, its sign depending on the conversion. -/
theorem outputCellValue_clamped (conv : Vec3q → Vec3q) (cm : ColorModel)
    (sp : Vec3q) (wl : Fin 3) :
    (cm ≠ ColorModel.XYZ_MODEL →
      DdrWriter.outputCellValue conv cm sp wl = max (sp.get wl) 0 * PI_F ∧
      0 ≤ DdrWriter.outputCellValue conv cm sp wl) ∧
    (cm = ColorModel.XYZ_MODEL →
      DdrWriter.outputCellValue conv cm sp wl = (conv sp.cwiseMax0).get wl * PI_F) := by
  have hget : sp.cwiseMax0.get wl = max (sp.get wl) 0 := by
    fin_cases wl <;> simp [Vec3q.get, Vec3q.cwiseMax0]
  have hpi : (0 : ℚ) ≤ PI_F := by norm_num [PI_F]
  constructor
  · intro hne
    rw [DdrWriter.outputCellValue, if_neg hne]
    refine ⟨by rw [hget], ?_⟩
    have h0 : 0 ≤ sp.cwiseMax0.get wl := by rw [hget]; exact le_max_right _ _
    exact mul_nonneg h0 hpi
  · intro he
    rw [DdrWriter.outputCellValue, if_pos he]

/-- C1 witness: a negative stored red channel in an RGB grid is emitted as 0. -/
theorem outputCellValue_clamped_witness :
    DdrWriter.outputCellValue id ColorModel.RGB_MODEL ⟨-2, 3, 0⟩ 0 = 0 ∧
    0 ≤ DdrWriter.outputCellValue id ColorModel.RGB_MODEL ⟨-2, 3, 0⟩ 0 := by
  have h := (outputCellValue_clamped id ColorModel.RGB_MODEL ⟨-2, 3, 0⟩ 0).1 (by decide)
  refine ⟨?_, h.2⟩
  rw [h.1]
  norm_num [Vec3q.get]

/-- C9: the export-oriented tabulation rejects every color model other than
RGB and monochromatic, storing nothing (the grid is returned unchanged), and
reports success for every supported color model. -/
theorem setupTabularBrdf_colorModel (model : ℕ → ℕ → ℕ → ℕ → Vec3q)
    (bsf : Bool) (dw : ℕ → ℕ → ℕ → ℕ → Bool) (ss : SampleSet) (maxValue : ℚ) :
    ((setupTabularBrdf model bsf dw ss maxValue).1 = false ↔
      (ss.colorModel ≠ ColorModel.RGB_MODEL ∧
       ss.colorModel ≠ ColorModel.MONOCHROMATIC_MODEL)) ∧
    (ss.colorModel ≠ ColorModel.RGB_MODEL →
     ss.colorModel ≠ ColorModel.MONOCHROMATIC_MODEL →
      (setupTabularBrdf model bsf dw ss maxValue).2 = ss) := by
  unfold setupTabularBrdf
  split_ifs with h
  · exact ⟨iff_of_true rfl h, fun _ _ => rfl⟩
  · exact ⟨iff_of_false (by simp) h, fun h1 h2 => absurd ⟨h1, h2⟩ h⟩

/-- C9 witness: a spectral grid is rejected and returned untouched. -/
theorem setupTabularBrdf_colorModel_witness :
    (setupTabularBrdf (fun _ _ _ _ => ⟨0, 0, 0⟩) false (fun _ _ _ _ => false)
      { angles0 := [], angles1 := [], angles2 := [], angles3 := [],
        wavelengths := [], spectra := [],
        colorModel := ColorModel.SPECTRAL_MODEL, oneSide := false } 1).1 = false :=
  (setupTabularBrdf_colorModel _ _ _ _ _).1.mpr (by constructor <;> decide)

/-- The length of a linearly spaced sequence is the requested element count. -/
theorem linSpaced_length {K : Type} [Field K] (n : ℕ) (low high : K) :
    (array_util.linSpaced n low high).length = n := by
  unfold array_util.linSpaced
  split <;> simp_all

/-- Entries of a linearly spaced sequence with at least two elements. -/
theorem linSpaced_getD {K : Type} [Field K] (n : ℕ) (low high : K) (i : ℕ)
    (hi : i < n) (h2 : 2 ≤ n) :
    (array_util.linSpaced n low high).getD i 0 =
      low + (high - low) * (i : K) / ((n - 1 : ℕ) : K) := by
  unfold array_util.linSpaced
  rw [if_neg (by omega), List.getD_eq_getElem?_getD, List.getElem?_map,
    List.getElem?_range hi]
  rfl

/-- Entries of the exponentially warped sequence: interior points are warped,
boundary points are the linear ones. -/
theorem createExponential_getD (n : ℕ) (m : ℝ) (e : ℝ) (i : ℕ) (hi : i < n) :
    (array_util.createExponential n m e).getD i 0 =
      if 1 ≤ i ∧ i + 1 < n then
        (((array_util.linSpaced n 0 m).getD i 0) / m) ^ e * m
      else (array_util.linSpaced n 0 m).getD i 0 := by
  have hi' : i < (array_util.linSpaced n 0 m).length := by rw [linSpaced_length]; exact hi
  simp only [array_util.createExponential]
  rw [List.mapIdx_eq_ofFn, List.getD_eq_getElem?_getD, List.getElem?_ofFn]
  simp only [List.ofFnNthVal, hi', dif_pos, Option.getD_some, linSpaced_length,
    List.get_eq_getElem, List.getD_eq_getElem (array_util.linSpaced n 0 m) 0 hi']
  rw [dif_pos hi, Option.getD_some]

/-- C4: isEqualInterval is false for length at most 2; for longer sequences it
accepts exactly when every element matches i * (last/(n-1)) within tolerance;
every exact arithmetic sequence i * c of length above 2 is accepted; and a
sequence with one element perturbed beyond the tolerance is rejected. -/
theorem isEqualInterval_characterization :
    (∀ seq : List ℚ, seq.length ≤ 2 → array_util.isEqualInterval seq = false) ∧
    (∀ seq : List ℚ, 2 < seq.length →
      (array_util.isEqualInterval seq = true ↔
        ∀ i < seq.length,
          array_util.isEqual (seq.getD i 0)
            (seq.getD (seq.length - 1) 0 / ((seq.length - 1 : ℕ) : ℚ) * (i : ℚ)) = true)) ∧
    (∀ (n : ℕ) (c : ℚ), 2 < n → 0 < c →
      array_util.isEqualInterval ((List.range n).map fun (i : ℕ) => (i : ℚ) * c) = true) ∧
    array_util.isEqualInterval [0, 3/2, 2, 3] = false := by
  have part1 : ∀ seq : List ℚ, seq.length ≤ 2 → array_util.isEqualInterval seq = false := by
    intro seq h
    unfold array_util.isEqualInterval
    rw [if_pos h]
  have part2 : ∀ seq : List ℚ, 2 < seq.length →
      (array_util.isEqualInterval seq = true ↔
        ∀ i < seq.length,
          array_util.isEqual (seq.getD i 0)
            (seq.getD (seq.length - 1) 0 / ((seq.length - 1 : ℕ) : ℚ) * (i : ℚ)) = true) := by
    intro seq h
    unfold array_util.isEqualInterval
    rw [if_neg (by omega), List.all_eq_true]
    simp [List.mem_range]
  refine ⟨part1, part2, ?_, ?_⟩
  · intro n c hn hc
    set seq := (List.range n).map fun (i : ℕ) => (i : ℚ) * c with hseq
    have hlen : seq.length = n := by simp [hseq]
    have hne : (((n - 1 : ℕ)) : ℚ) ≠ 0 := Nat.cast_ne_zero.mpr (by omega)
    have hgd : ∀ j, j < n → seq.getD j 0 = (j : ℚ) * c := by
      intro j hj
      rw [hseq, List.getD_eq_getElem?_getD, List.getElem?_map, List.getElem?_range hj]
      rfl
    rw [(part2 seq (by omega)).2]
    intro i hi
    rw [hlen] at hi
    rw [hlen, hgd i hi, hgd (n - 1) (by omega), mul_div_cancel_left₀ _ hne,
      mul_comm c (i : ℚ)]
    simp only [array_util.isEqual, sub_self, abs_zero, decide_eq_true_eq]
    exact mul_nonneg (by norm_num [EPSILON_F]) (le_trans zero_le_one (le_max_right _ _))
  · rw [← Bool.not_eq_true, (part2 [0, 3/2, 2, 3] (by norm_num))]
    intro hall
    have h1 := hall 1 (by norm_num)
    have hmax : |(3 : ℚ)/2| ⊔ 1 = 3/2 := by
      rw [show |(3 : ℚ)/2| = 3/2 from by norm_num]
      norm_num [max_def]
    norm_num [array_util.isEqual, EPSILON_F] at h1
    rw [hmax, show |(1 : ℚ)/2| = 1/2 from by norm_num] at h1
    norm_num at h1

/-- C4 witness: every exact arithmetic sequence with more than two elements is
accepted. -/
theorem isEqualInterval_characterization_witness :
    array_util.isEqualInterval ((List.range 5).map fun (i : ℕ) => (i : ℚ) * 7) = true :=
  isEqualInterval_characterization.2.2.1 5 7 (by norm_num) (by norm_num)

/-- C5: createExponential with exponent 1 reproduces the linearly spaced
sequence; for every exponent above 1 each interior point drops strictly below
its linear counterpart; the first and last points are never modified. -/
theorem createExponential_characterization :
    (∀ (n : ℕ) (m : ℝ), m ≠ 0 →
      array_util.createExponential n m 1 = array_util.linSpaced n 0 m) ∧
    (∀ (n i : ℕ) (m : ℝ) (e : ℝ), 0 < m → 1 < e → 0 < i → i + 1 < n →
      (array_util.createExponential n m e).getD i 0 <
        (array_util.linSpaced n 0 m).getD i 0) ∧
    (∀ (n : ℕ) (m : ℝ) (e : ℝ), 2 ≤ n →
      (array_util.createExponential n m e).getD 0 0 =
        (array_util.linSpaced n 0 m).getD 0 0 ∧
      (array_util.createExponential n m e).getD (n - 1) 0 =
        (array_util.linSpaced n 0 m).getD (n - 1) 0 ∧
      (array_util.linSpaced n 0 m).getD 0 0 = 0 ∧
      (array_util.linSpaced n 0 m).getD (n - 1) 0 = m) := by
  refine ⟨?_, ?_, ?_⟩
  · intro n m hm
    simp only [array_util.createExponential]
    rw [List.mapIdx_eq_ofFn]
    conv_rhs => rw [← List.ofFn_get (array_util.linSpaced n 0 m)]
    refine congrArg List.ofFn (funext fun i => ?_)
    split_ifs with h
    · rw [Real.rpow_one, div_mul_cancel₀ _ hm]
    · rfl
  · intro n i m e hm he hi hin
    have h2 : 2 ≤ n := by omega
    have hlt : i < n := by omega
    have hne : (((n - 1 : ℕ)) : ℝ) ≠ 0 := Nat.cast_ne_zero.mpr (by omega)
    have hdpos : (0 : ℝ) < ((n - 1 : ℕ) : ℝ) := by
      exact_mod_cast (by omega : 0 < n - 1)
    rw [createExponential_getD n m e i hlt, if_pos ⟨hi, hin⟩,
      linSpaced_getD n 0 m i hlt h2]
    have hx : (0 + (m - 0) * (i : ℝ) / ((n - 1 : ℕ) : ℝ)) / m =
        (i : ℝ) / ((n - 1 : ℕ) : ℝ) := by
      rw [zero_add, sub_zero, mul_div_assoc]
      exact mul_div_cancel_left₀ _ hm.ne'
    rw [hx]
    have hrpos : 0 < (i : ℝ) / ((n - 1 : ℕ) : ℝ) := by
      apply div_pos _ hdpos
      exact_mod_cast hi
    have hrlt : (i : ℝ) / ((n - 1 : ℕ) : ℝ) < 1 := by
      rw [div_lt_one hdpos]
      exact_mod_cast (by omega : i < n - 1)
    have hpow : ((i : ℝ) / ((n - 1 : ℕ) : ℝ)) ^ e < (i : ℝ) / ((n - 1 : ℕ) : ℝ) := by
      have h := Real.rpow_lt_rpow_of_exponent_gt hrpos hrlt he
      rwa [Real.rpow_one] at h
    calc ((i : ℝ) / ((n - 1 : ℕ) : ℝ)) ^ e * m
        < ((i : ℝ) / ((n - 1 : ℕ) : ℝ)) * m := by
          exact mul_lt_mul_of_pos_right hpow hm
      _ = 0 + (m - 0) * (i : ℝ) / ((n - 1 : ℕ) : ℝ) := by ring
  · intro n m e h2
    have hne : (((n - 1 : ℕ)) : ℝ) ≠ 0 := Nat.cast_ne_zero.mpr (by omega)
    refine ⟨?_, ?_, ?_, ?_⟩
    · rw [createExponential_getD n m e 0 (by omega), if_neg (by omega)]
    · rw [createExponential_getD n m e (n - 1) (by omega), if_neg (by omega)]
    · rw [linSpaced_getD n 0 m 0 (by omega) h2]
      norm_num
    · rw [linSpaced_getD n 0 m (n - 1) (by omega) h2]
      rw [zero_add, sub_zero, mul_div_assoc, div_self hne, mul_one]

/-- The binary-search arm keeps the bracketing pair inside the initial range. -/
theorem searchBounds_range (values : List ℚ) (value : ℚ) :
    ∀ (d lo hi : ℕ), hi - lo ≤ d → lo ≤ hi →
      lo ≤ (array_util.searchBounds values value lo hi).1 ∧
      (array_util.searchBounds values value lo hi).1 ≤
        (array_util.searchBounds values value lo hi).2 ∧
      (array_util.searchBounds values value lo hi).2 ≤ hi := by
  intro d
  induction d with
  | zero =>
    intro lo hi hd hle
    rw [array_util.searchBounds, if_pos (by omega)]
    exact ⟨le_refl _, hle, le_refl _⟩
  | succ d ih =>
    intro lo hi hd hle
    rw [array_util.searchBounds]
    split_ifs with h1 h2
    · exact ⟨le_refl _, hle, le_refl _⟩
    · have h := ih lo ((lo + hi) / 2) (by omega) (by omega)
      exact ⟨h.1, h.2.1, by omega⟩
    · have h := ih ((lo + hi) / 2) hi (by omega) (by omega)
      exact ⟨by omega, h.2.1, by omega⟩

/-- C6: for every ascending sequence and every query, findBounds returns a
pair of indices inside [0, n-1]; a query below the first sample returns the
two lowest boundary samples, a query above the last returns the two highest,
and with a single sample both bounds are index 0. -/
theorem findBounds_inRange (values : List ℚ) (q : ℚ) (eq : Bool)
    (h0 : 0 < values.length) (hsort : List.Sorted (· < ·) values) :
    (array_util.findBounds values q eq).1 ≤ values.length - 1 ∧
    (array_util.findBounds values q eq).2 ≤ values.length - 1 ∧
    (values.length = 1 → array_util.findBounds values q eq = (0, 0)) ∧
    (1 < values.length → q < values.getD 0 0 →
      array_util.findBounds values q eq = (0, 1)) ∧
    (1 < values.length → values.getD (values.length - 1) 0 < q →
      array_util.findBounds values q eq = (values.length - 2, values.length - 1)) := by
  have hmono : values.getD 0 0 ≤ values.getD (values.length - 1) 0 := by
    rcases Nat.lt_or_ge 1 values.length with h | h
    · rw [List.getD_eq_getElem _ 0 (by omega), List.getD_eq_getElem _ 0 (by omega)]
      have hrel := hsort.rel_get_of_lt
        (a := ⟨0, by omega⟩) (b := ⟨values.length - 1, by omega⟩)
        (by simp [Fin.lt_def]; omega)
      simp only [List.get_eq_getElem] at hrel
      exact le_of_lt hrel
    · have h1 : values.length = 1 := by omega
      rw [h1]
  simp only [array_util.findBounds]
  split_ifs with h1 h2 h3 h4
  · exact ⟨by omega, by omega, fun _ => rfl,
      fun hn _ => absurd hn (by omega), fun hn _ => absurd hn (by omega)⟩
  · exact ⟨by omega, by omega, fun hn => absurd hn (by omega),
      fun _ _ => rfl, fun _ hq => absurd hq (not_lt.mpr (le_trans h2 hmono))⟩
  · exact ⟨by omega, by omega, fun hn => absurd hn (by omega),
      fun _ hq => absurd hq (not_lt.mpr (le_trans hmono h3)), fun _ _ => rfl⟩
  · refine ⟨by omega, by omega, fun hn => absurd hn (by omega),
      fun _ hq => ?_, fun _ hq => ?_⟩
    · exact absurd hq (by push_neg at h2; exact not_lt.mpr h2.le)
    · exact absurd hq (by push_neg at h3; exact not_lt.mpr h3.le)
  · have h := searchBounds_range values q (values.length - 1) 0 (values.length - 1)
      (by omega) (by omega)
    refine ⟨by omega, by omega, fun hn => absurd hn (by omega),
      fun _ hq => ?_, fun _ hq => ?_⟩
    · exact absurd hq (by push_neg at h2; exact not_lt.mpr h2.le)
    · exact absurd hq (by push_neg at h3; exact not_lt.mpr h3.le)

/-- C6 witness: a query above the last of three ascending samples gets the two
highest boundary indices. -/
theorem findBounds_inRange_witness :
    array_util.findBounds [0, 1, 2] 10 false = (1, 2) := by
  have h := findBounds_inRange [0, 1, 2] 10 false (by norm_num)
    (by norm_num [List.sorted_cons])
  exact h.2.2.2.2 (by norm_num) (by norm_num [List.getD])

/-- C5 witness: at 4 samples up to 1 with the non-integer exponent 3/2, the
interior point at index 1 drops strictly below its linear counterpart. -/
theorem createExponential_characterization_witness :
    (array_util.createExponential 4 1 (3/2)).getD 1 0 <
      (array_util.linSpaced 4 0 1).getD 1 0 :=
  createExponential_characterization.2.1 4 1 1 (3/2) (by norm_num) (by norm_num)
    (by norm_num) (by norm_num)

/-- C7: the first arrangement step replaces a single-sample incoming polar
axis by exactly 10 linearly spaced samples from 0 to the maximum angle, with
the single stored slice extended flat onto every new sample and the other
axes untouched; a grid with more than one incoming polar sample passes
through unchanged. -/
theorem arrangeStep1_characterization (ss : SampleSet) :
    (ss.angles0.length = 1 →
      (arrangeStep1 ss).angles0 = (array_util.linSpaced 10 0 MAX_ANGLE0).map FVal.fin ∧
      (arrangeStep1 ss).angles0.length = 10 ∧
      (∀ i, i < 10 →
        (arrangeStep1 ss).angles0.getD i FVal.nan =
          FVal.fin (MAX_ANGLE0 * (i : ℚ) / 9)) ∧
      (arrangeStep1 ss).spectra = List.replicate 10 (ss.spectra.getD 0 []) ∧
      (arrangeStep1 ss).angles1 = ss.angles1 ∧
      (arrangeStep1 ss).angles2 = ss.angles2 ∧
      (arrangeStep1 ss).angles3 = ss.angles3) ∧
    (ss.angles0.length ≠ 1 → arrangeStep1 ss = ss) := by
  constructor
  · intro h1
    unfold arrangeStep1
    rw [if_pos h1]
    refine ⟨rfl, by simp [linSpaced_length], ?_, rfl, rfl, rfl, rfl⟩
    intro i hi
    have hl : i < (array_util.linSpaced 10 0 MAX_ANGLE0).length := by
      rw [linSpaced_length]; omega
    show ((array_util.linSpaced 10 0 MAX_ANGLE0).map FVal.fin).getD i FVal.nan = _
    rw [List.getD_eq_getElem?_getD, List.getElem?_map, List.getElem?_eq_getElem hl,
      Option.map_some', Option.getD_some]
    rw [← List.getD_eq_getElem _ 0 hl,
      linSpaced_getD 10 0 MAX_ANGLE0 i (by omega) (by norm_num)]
    norm_num [mul_comm]
  · intro h
    unfold arrangeStep1
    rw [if_neg h]

/-- C7 witness: a one-incoming-angle grid gets a 10-sample incoming axis. -/
theorem arrangeStep1_characterization_witness :
    (arrangeStep1
      { angles0 := [FVal.fin 0], angles1 := [FVal.fin 0], angles2 := [FVal.fin 0],
        angles3 := [FVal.fin 0], wavelengths := [FVal.fin 500],
        spectra := [[[[[FVal.fin 2]]]]],
        colorModel := ColorModel.MONOCHROMATIC_MODEL,
        oneSide := true }).angles0.length = 10 :=
  ((arrangeStep1_characterization
      { angles0 := [FVal.fin 0], angles1 := [FVal.fin 0], angles2 := [FVal.fin 0],
        angles3 := [FVal.fin 0], wavelengths := [FVal.fin 500],
        spectra := [[[[[FVal.fin 2]]]]],
        colorModel := ColorModel.MONOCHROMATIC_MODEL,
        oneSide := true }).1 rfl).2.1

/-- Indexing a map over an index range selects the generating function. -/
theorem getD_map_range {α : Type} (f : ℕ → α) (n i : ℕ) (hi : i < n) (d : α) :
    ((List.range n).map f).getD i d = f i := by
  rw [List.getD_eq_getElem?_getD, List.getElem?_map, List.getElem?_range hi,
    Option.map_some', Option.getD_some]

/-- C10: every spectrum the tabulation stores is capped at maxValue: RGB cells
are the channel-wise minimum of the model value and maxValue, monochromatic
cells are min(mean of the three channels, maxValue), skipped back-side cells
are zero-filled; hence no stored channel exceeds maxValue. -/
theorem setupTabularBrdf_capped (model : ℕ → ℕ → ℕ → ℕ → Vec3q)
    (bsf : Bool) (dw : ℕ → ℕ → ℕ → ℕ → Bool) (ss : SampleSet) (maxValue : ℚ)
    (hmax : 0 ≤ maxValue)
    (hsup : (setupTabularBrdf model bsf dw ss maxValue).1 = true) :
    (∀ i0 i1 i2 i3,
      i0 < ss.angles0.length → i1 < ss.angles1.length →
      i2 < ss.angles2.length → i3 < ss.angles3.length →
      (bsf && dw i0 i1 i2 i3) = false →
      (((((setupTabularBrdf model bsf dw ss maxValue).2.spectra.getD i0 []).getD
          i1 []).getD i2 []).getD i3 []) =
        (if ss.colorModel = ColorModel.RGB_MODEL then
          [FVal.fin (min (model i0 i1 i2 i3).x maxValue),
           FVal.fin (min (model i0 i1 i2 i3).y maxValue),
           FVal.fin (min (model i0 i1 i2 i3).z maxValue)]
         else
          [FVal.fin (min (((model i0 i1 i2 i3).x + (model i0 i1 i2 i3).y +
            (model i0 i1 i2 i3).z) / 3) maxValue)])) ∧
    (∀ s0 ∈ (setupTabularBrdf model bsf dw ss maxValue).2.spectra,
     ∀ s1 ∈ s0, ∀ row ∈ s1, ∀ sp ∈ row, ∀ v ∈ sp,
       ∃ q, v = FVal.fin q ∧ q ≤ maxValue) := by
  have hcond : ¬(ss.colorModel ≠ ColorModel.RGB_MODEL ∧
      ss.colorModel ≠ ColorModel.MONOCHROMATIC_MODEL) := by
    intro hc
    simp [setupTabularBrdf, hc] at hsup
  have hspec : (setupTabularBrdf model bsf dw ss maxValue).2.spectra =
      (List.range ss.angles0.length).map fun i0 =>
        (List.range ss.angles1.length).map fun i1 =>
          (List.range ss.angles2.length).map fun i2 =>
            (List.range ss.angles3.length).map fun i3 =>
              tabCell model ss.colorModel bsf dw maxValue i0 i1 i2 i3 := by
    unfold setupTabularBrdf
    rw [if_neg hcond]
  constructor
  · intro i0 i1 i2 i3 h0 h1 h2 h3 hskip
    rw [hspec, getD_map_range _ _ _ h0 _, getD_map_range _ _ _ h1 _,
      getD_map_range _ _ _ h2 _, getD_map_range _ _ _ h3 _]
    unfold tabCell
    rw [if_neg (by rw [hskip]; exact Bool.false_ne_true)]
  · intro s0 hs0 s1 hs1 row hrow sp hsp v hv
    rw [hspec] at hs0
    rcases List.mem_map.mp hs0 with ⟨i0, hi0, heq0⟩
    subst heq0
    rcases List.mem_map.mp hs1 with ⟨i1, hi1, heq1⟩
    subst heq1
    rcases List.mem_map.mp hrow with ⟨i2, hi2, heq2⟩
    subst heq2
    rcases List.mem_map.mp hsp with ⟨i3, hi3, heq3⟩
    subst heq3
    unfold tabCell at hv
    split_ifs at hv with hskip hcm hcm <;>
      simp only [List.mem_cons, List.not_mem_nil, or_false] at hv
    · rcases hv with rfl | rfl | rfl <;> exact ⟨0, rfl, hmax⟩
    · rcases hv with rfl | rfl
      exact ⟨0, rfl, hmax⟩
    · rcases hv with rfl | rfl | rfl
      · exact ⟨_, rfl, min_le_right _ _⟩
      · exact ⟨_, rfl, min_le_right _ _⟩
      · exact ⟨_, rfl, min_le_right _ _⟩
    · rcases hv with rfl | rfl
      exact ⟨_, rfl, min_le_right _ _⟩

/-- C10 witness: a monochromatic cell stores min(mean, maxValue). -/
theorem setupTabularBrdf_capped_witness :
    (((((setupTabularBrdf (fun _ _ _ _ => ⟨5, 1, 2⟩) false (fun _ _ _ _ => false)
      { angles0 := [FVal.fin 0], angles1 := [FVal.fin 0], angles2 := [FVal.fin 0],
        angles3 := [FVal.fin 0], wavelengths := [FVal.fin 500],
        spectra := [[[[[FVal.fin 0]]]]],
        colorModel := ColorModel.MONOCHROMATIC_MODEL,
        oneSide := false } 3).2.spectra.getD 0 []).getD 0 []).getD 0 []).getD 0 []) =
      [FVal.fin (8/3)] := by
  have h := (setupTabularBrdf_capped (fun _ _ _ _ => ⟨5, 1, 2⟩) false
    (fun _ _ _ _ => false)
    { angles0 := [FVal.fin 0], angles1 := [FVal.fin 0], angles2 := [FVal.fin 0],
      angles3 := [FVal.fin 0], wavelengths := [FVal.fin 500],
      spectra := [[[[[FVal.fin 0]]]]],
      colorModel := ColorModel.MONOCHROMATIC_MODEL,
      oneSide := false } 3 (by norm_num) rfl).1 0 0 0 0
    (by norm_num) (by norm_num) (by norm_num) (by norm_num) rfl
  rw [h, if_neg (by decide)]
  norm_num [min_def]

/-- Finite operands give a finite idealized sum. -/
theorem FVal.add_isFinite {x y : FVal} (hx : x.isFinite = true) (hy : y.isFinite = true) :
    (FVal.add x y).isFinite = true := by
  cases x <;> cases y <;> simp_all [FVal.add, FVal.isFinite]

/-- Subtracting a finite value from a finite constant stays finite. -/
theorem FVal.sub_isFinite {c : ℚ} {x : FVal} (hx : x.isFinite = true) :
    (FVal.sub (FVal.fin c) x).isFinite = true := by
  cases x <;> simp_all [FVal.sub, FVal.isFinite]

/-- Scaling keeps finite values finite. -/
theorem FVal.scale_isFinite {c : ℚ} {x : FVal} (hx : x.isFinite = true) :
    (FVal.scale c x).isFinite = true := by
  cases x <;> simp_all [FVal.scale, FVal.isFinite]

/-- Clamping keeps finite values finite. -/
theorem FVal.clamp_isFinite {b : ℚ} {x : FVal} (hx : x.isFinite = true) :
    (FVal.clamp b x).isFinite = true := by
  cases x <;> simp_all [FVal.clamp, FVal.isFinite]

/-- Pointwise spectrum addition preserves finiteness. -/
theorem spectrumAdd_allFinite :
    ∀ (a b : Spectrum), a.allFinite = true → b.allFinite = true →
      (Spectrum.add a b).allFinite = true := by
  intro a
  induction a with
  | nil => intro b _ _; rfl
  | cons x xs ih =>
    intro b ha hb
    cases b with
    | nil => rfl
    | cons y ys =>
      simp only [Spectrum.add, List.zipWith_cons_cons, Spectrum.allFinite,
        List.all_cons, Bool.and_eq_true] at *
      exact ⟨FVal.add_isFinite ha.1 hb.1, ih ys ha.2 hb.2⟩

/-- Pointwise spectrum scaling preserves finiteness. -/
theorem spectrumScale_allFinite {c : ℚ} {sp : Spectrum} (h : sp.allFinite = true) :
    (Spectrum.scale c sp).allFinite = true := by
  simp only [Spectrum.scale, Spectrum.allFinite, List.all_eq_true, List.mem_map] at *
  rintro v ⟨w, hw, rfl⟩
  exact FVal.scale_isFinite (h w hw)

/-- Folding spectrum addition over finite spectra preserves finiteness. -/
theorem spectrumFoldlAdd_allFinite :
    ∀ (t : List Spectrum) (h : Spectrum), h.allFinite = true →
      (∀ sp ∈ t, sp.allFinite = true) → (t.foldl Spectrum.add h).allFinite = true := by
  intro t
  induction t with
  | nil => intro h hh _; exact hh
  | cons x xs ih =>
    intro h hh hmem
    simp only [List.foldl_cons]
    exact ih (Spectrum.add h x) (spectrumAdd_allFinite h x hh (hmem x (by simp)))
      (fun sp hsp => hmem sp (by simp [hsp]))

/-- The mean of finitely many finite spectra is finite. -/
theorem spectrumAvgOf_allFinite {l : List Spectrum} (h : ∀ sp ∈ l, sp.allFinite = true) :
    (Spectrum.avgOf l).allFinite = true := by
  cases l with
  | nil => rfl
  | cons x xs =>
    exact spectrumScale_allFinite (spectrumFoldlAdd_allFinite xs x (h x (by simp))
      (fun sp hsp => h sp (by simp [hsp])))

/-- Pointwise row addition preserves finiteness. -/
theorem rowAdd_allFinite :
    ∀ (a b : List Spectrum), (∀ sp ∈ a, sp.allFinite = true) →
      (∀ sp ∈ b, sp.allFinite = true) →
      ∀ sp ∈ List.zipWith Spectrum.add a b, sp.allFinite = true := by
  intro a
  induction a with
  | nil => intro b _ _ sp hsp; simp at hsp
  | cons x xs ih =>
    intro b ha hb sp hsp
    cases b with
    | nil => simp at hsp
    | cons y ys =>
      rw [List.zipWith_cons_cons] at hsp
      rcases List.mem_cons.mp hsp with rfl | hsp
      · exact spectrumAdd_allFinite x y (ha x (by simp)) (hb y (by simp))
      · exact ih ys (fun s hs => ha s (by simp [hs])) (fun s hs => hb s (by simp [hs])) sp hsp

/-- Pointwise block addition preserves finiteness. -/
theorem blockAdd_allFinite :
    ∀ (a b : Block), (∀ row ∈ a, ∀ sp ∈ row, sp.allFinite = true) →
      (∀ row ∈ b, ∀ sp ∈ row, sp.allFinite = true) →
      ∀ row ∈ Block.add a b, ∀ sp ∈ row, sp.allFinite = true := by
  intro a
  induction a with
  | nil => intro b _ _ row hrow; simp [Block.add] at hrow
  | cons x xs ih =>
    intro b ha hb row hrow
    cases b with
    | nil => simp [Block.add] at hrow
    | cons y ys =>
      rw [Block.add, List.zipWith_cons_cons] at hrow
      rcases List.mem_cons.mp hrow with rfl | hrow
      · exact rowAdd_allFinite x y (ha x (by simp)) (hb y (by simp))
      · exact ih ys (fun r hr => ha r (by simp [hr])) (fun r hr => hb r (by simp [hr]))
          row hrow

/-- Pointwise block scaling preserves finiteness. -/
theorem blockScale_allFinite {c : ℚ} {b : Block}
    (h : ∀ row ∈ b, ∀ sp ∈ row, sp.allFinite = true) :
    ∀ row ∈ Block.scale c b, ∀ sp ∈ row, sp.allFinite = true := by
  intro row hrow sp hsp
  rcases List.mem_map.mp hrow with ⟨r, hr, rfl⟩
  rcases List.mem_map.mp hsp with ⟨s, hs, rfl⟩
  exact spectrumScale_allFinite (h r hr s hs)

/-- Folding block addition over finite blocks preserves finiteness. -/
theorem blockFoldlAdd_allFinite :
    ∀ (t : List Block) (h : Block), (∀ row ∈ h, ∀ sp ∈ row, sp.allFinite = true) →
      (∀ blk ∈ t, ∀ row ∈ blk, ∀ sp ∈ row, sp.allFinite = true) →
      ∀ row ∈ t.foldl Block.add h, ∀ sp ∈ row, sp.allFinite = true := by
  intro t
  induction t with
  | nil => intro h hh _; exact hh
  | cons x xs ih =>
    intro h hh hmem
    simp only [List.foldl_cons]
    exact ih (Block.add h x) (blockAdd_allFinite h x hh (hmem x (by simp)))
      (fun blk hblk => hmem blk (by simp [hblk]))

/-- The mean of finitely many finite blocks is finite. -/
theorem blockAvgOf_allFinite {l : List Block}
    (h : ∀ blk ∈ l, ∀ row ∈ blk, ∀ sp ∈ row, sp.allFinite = true) :
    ∀ row ∈ Block.avgOf l, ∀ sp ∈ row, sp.allFinite = true := by
  cases l with
  | nil => intro row hrow; simp [Block.avgOf] at hrow
  | cons x xs =>
    exact blockScale_allFinite (blockFoldlAdd_allFinite xs x (h x (by simp))
      (fun blk hblk => h blk (by simp [hblk])))

/-- validate in propositional form. -/
theorem validate_iff_prop (ss : SampleSet) :
    ss.validate = true ↔
      SpectraFinite ss.spectra ∧ AxisFinite ss.angles0 ∧ AxisFinite ss.angles1 ∧
      AxisFinite ss.angles2 ∧ AxisFinite ss.angles3 ∧ AxisFinite ss.wavelengths := by
  simp only [SampleSet.validate, spectraAllFinite, SpectraFinite, AxisFinite,
    Bool.and_eq_true, List.all_eq_true]
  tauto

/-- The incoming-angle expansion step preserves validity. -/
theorem arrangeStep1_validate {ss : SampleSet} (h : ss.validate = true) :
    (arrangeStep1 ss).validate = true := by
  rw [validate_iff_prop] at *
  obtain ⟨hs, h0, h1, h2, h3, hw⟩ := h
  unfold arrangeStep1
  split_ifs with hlen
  · refine ⟨?_, ?_, h1, h2, h3, hw⟩
    · intro s0 hs0
      rw [List.mem_replicate] at hs0
      rcases hs0 with ⟨-, rfl⟩
      cases hsp : ss.spectra with
      | nil => intro s1 hs1; simp at hs1
      | cons a rest =>
        rw [List.getD_cons_zero]
        exact hs a (by rw [hsp]; simp)
    · intro v hv
      rcases List.mem_map.mp hv with ⟨q, -, rfl⟩
      rfl
  · exact ⟨hs, h0, h1, h2, h3, hw⟩

/-- The overlap-equalization step preserves validity. -/
theorem equalize_validate {ss : SampleSet} (h : ss.validate = true) :
    (equalizeOverlappingSamples ss).validate = true := by
  rw [validate_iff_prop] at *
  obtain ⟨hs, h0, h1, h2, h3, hw⟩ := h
  refine ⟨?_, h0, h1, h2, h3, hw⟩
  have h1s : SpectraFinite (match ss.spectra with
      | [] => ([] : Spectra4)
      | s0 :: rest => (s0.map fun _ => Block.avgOf s0) :: rest) := by
    cases hsp : ss.spectra with
    | nil => intro s0 hs0; simp at hs0
    | cons a rest =>
      intro s0 hs0
      rcases List.mem_cons.mp hs0 with rfl | hs0
      · intro s1 hs1
        rcases List.mem_map.mp hs1 with ⟨-, -, rfl⟩
        exact blockAvgOf_allFinite (hs a (by rw [hsp]; simp))
      · exact hs s0 (by rw [hsp]; simp [hs0])
  intro s0 hs0
  rcases List.mem_map.mp hs0 with ⟨t0, ht0, rfl⟩
  intro s1 hs1
  rcases List.mem_map.mp hs1 with ⟨t1, ht1, rfl⟩
  have ht1fin := h1s t0 ht0 t1 ht1
  cases t1 with
  | nil => intro row hrow; simp at hrow
  | cons b0 rest2 =>
    intro row hrow
    rcases List.mem_cons.mp hrow with rfl | hrow
    · intro sp hsp
      rcases List.mem_map.mp hsp with ⟨-, -, rfl⟩
      exact spectrumAvgOf_allFinite (ht1fin b0 (by simp))
    · exact ht1fin row (by simp [hrow])

/-- The azimuthal symmetrization step preserves validity. -/
theorem expandAngles_validate {ss : SampleSet} (h : ss.validate = true) :
    (expandAngles ss).validate = true := by
  rw [validate_iff_prop] at *
  obtain ⟨hs, h0, h1, h2, h3, hw⟩ := h
  unfold expandAngles
  split_ifs with hone
  · refine ⟨?_, h0, h1, h2, ?_, hw⟩
    · intro s0 hs0
      rcases List.mem_map.mp hs0 with ⟨t0, ht0, rfl⟩
      intro s1 hs1
      rcases List.mem_map.mp hs1 with ⟨t1, ht1, rfl⟩
      intro row hrow
      rcases List.mem_map.mp hrow with ⟨r, hr, rfl⟩
      intro sp hsp
      rcases List.mem_append.mp hsp with hsp | hsp
      · exact hs t0 ht0 t1 ht1 r hr sp hsp
      · rw [List.mem_reverse] at hsp
        exact hs t0 ht0 t1 ht1 r hr sp (List.mem_of_mem_drop hsp)
    · intro v hv
      rcases List.mem_append.mp hv with hv | hv
      · exact h3 v hv
      · rcases List.mem_map.mp hv with ⟨w, hw2, rfl⟩
        rw [List.mem_reverse] at hw2
        exact FVal.sub_isFinite (h3 w (List.mem_of_mem_drop hw2))
  · exact ⟨hs, h0, h1, h2, h3, hw⟩

/-- The periodic-boundary duplication step preserves validity. -/
theorem copySpectra_validate {ss : SampleSet} (h : ss.validate = true) :
    (copySpectraFromPhiOf0To360 ss).validate = true := by
  rw [validate_iff_prop] at *
  obtain ⟨hs, h0, h1, h2, h3, hw⟩ := h
  refine ⟨?_, h0, h1, h2, ?_, hw⟩
  · intro s0 hs0
    rcases List.mem_map.mp hs0 with ⟨t0, ht0, rfl⟩
    intro s1 hs1
    rcases List.mem_map.mp hs1 with ⟨t1, ht1, rfl⟩
    intro row hrow
    rcases List.mem_map.mp hrow with ⟨r, hr, rfl⟩
    intro sp hsp
    rcases List.mem_append.mp hsp with hsp | hsp
    · exact hs t0 ht0 t1 ht1 r hr sp hsp
    · rw [List.mem_singleton] at hsp
      subst hsp
      cases r with
      | nil => rfl
      | cons a rest => rw [List.getD_cons_zero]; exact hs t0 ht0 t1 ht1 _ hr a (by simp)
  · intro v hv
    rcases List.mem_append.mp hv with hv | hv
    · exact h3 v hv
    · rw [List.mem_singleton] at hv
      subst hv
      rfl

/-- The energy-plausibility correction preserves validity. -/
theorem fixEnergy_validate {bound : ℚ} {ss : SampleSet} (h : ss.validate = true) :
    (fixEnergyConservation bound ss).validate = true := by
  rw [validate_iff_prop] at *
  obtain ⟨hs, h0, h1, h2, h3, hw⟩ := h
  refine ⟨?_, h0, h1, h2, h3, hw⟩
  intro s0 hs0
  rcases List.mem_map.mp hs0 with ⟨t0, ht0, rfl⟩
  intro s1 hs1
  rcases List.mem_map.mp hs1 with ⟨t1, ht1, rfl⟩
  intro row hrow
  rcases List.mem_map.mp hrow with ⟨r, hr, rfl⟩
  intro sp hsp
  rcases List.mem_map.mp hsp with ⟨s, hsmem, rfl⟩
  simp only [Spectrum.allFinite, List.all_eq_true]
  intro v hv
  rcases List.mem_map.mp hv with ⟨w, hwmem, rfl⟩
  have := hs t0 ht0 t1 ht1 r hr s hsmem
  rw [Spectrum.allFinite, List.all_eq_true] at this
  exact FVal.clamp_isFinite (this w hwmem)

/-- The grazing zero-fill step preserves validity. -/
theorem fillSpectra_validate {v : ℚ} {ss : SampleSet} (h : ss.validate = true) :
    (fillSpectraAtInThetaOf90 ss v).validate = true := by
  rw [validate_iff_prop] at *
  obtain ⟨hs, h0, h1, h2, h3, hw⟩ := h
  refine ⟨?_, h0, h1, h2, h3, hw⟩
  intro s0 hs0
  rcases List.mem_map.mp hs0 with ⟨p, hp, rfl⟩
  rcases p with ⟨a, b⟩
  have hb := (List.of_mem_zip hp).2
  by_cases hc : a = FVal.fin MAX_ANGLE0
  · rw [if_pos hc]
    intro s1 hs1
    rcases List.mem_map.mp hs1 with ⟨t1, -, rfl⟩
    intro row hrow
    rcases List.mem_map.mp hrow with ⟨r, -, rfl⟩
    intro sp hsp
    rcases List.mem_map.mp hsp with ⟨s, -, rfl⟩
    simp only [Spectrum.allFinite, List.all_eq_true]
    intro w hwm
    rcases List.mem_map.mp hwm with ⟨u, -, rfl⟩
    rfl
  · rw [if_neg hc]
    exact hs b hb

/-- The full arrangement pipeline preserves validity. -/
theorem arrange_validate (ss : SampleSet) (dt : DataType) (h : ss.validate = true) :
    (DdrWriter.arrange ss dt).validate = true := by
  have he : (fixEnergyConservation ENERGY_BOUND
      (copySpectraFromPhiOf0To360 (expandAngles
        (equalizeOverlappingSamples (arrangeStep1 ss))))).validate = true :=
    fixEnergy_validate (copySpectra_validate (expandAngles_validate
      (equalize_validate (arrangeStep1_validate h))))
  unfold DdrWriter.arrange
  split_ifs with hdt
  · exact fillSpectra_validate he
  · exact he

/-- C2: the DDR write operation fails exactly when the destination cannot be
opened or the source grid fails finiteness validation before arrangement; for
every grid that passes validation and every openable destination it succeeds
(the arranged grid stays valid, so the re-validation inside output passes). -/
theorem write_failure_characterization (canOpen : Bool) (ss : SampleSet) (dt : DataType) :
    DdrWriter.write canOpen ss dt = true ↔ (canOpen = true ∧ ss.validate = true) := by
  constructor
  · intro h
    unfold DdrWriter.write DdrWriter.writeCanonical at h
    by_cases hv : ss.validate = true
    · refine ⟨?_, hv⟩
      rw [hv] at h
      cases canOpen with
      | true => rfl
      | false => simp at h
    · rw [Bool.eq_false_iff.mpr hv] at h
      simp at h
  · rintro ⟨hc, hv⟩
    unfold DdrWriter.write DdrWriter.writeCanonical DdrWriter.outputOk DdrWriter.convert
    rw [hv, hc]
    simp only [Bool.not_true, Bool.false_eq_true, if_false]
    exact arrange_validate ss dt hv

end LibBsdf
